import Mathlib

/-!
Shallow embedding of TagLib's `FileStream` (`taglib/toolkit/tfilestream.cpp`).

A file on disk is a list of bytes; a byte is modelled as `Nat` (byte values
are only moved around, never computed with).  A `FileStream` carries the file
contents, the current file-pointer position, the `readOnly` flag fixed at
open time, whether the underlying handle is valid (`isOpen`), and the
C-library end-of-file/error latch that `clearerr` resets (`eofLatch`).

The platform primitives (`fread`/`fwrite`/`fseeko`/`ftruncate` on the POSIX
branch, `ReadFile`/`WriteFile`/`SetFilePointer`/`SetEndOfFile` on the Win32
branch) are modelled with their documented regular-file semantics:
* a read of `n` bytes at position `p` returns `min n (size - p)` bytes and
  advances the position by the bytes actually read; a short read latches
  end-of-file;
* a write on a writable handle with a clear latch splices the data in at the
  current position (zero-filling any hole when writing past end of file) and
  advances the position by the byte count; a write on a read-only handle
  fails and changes nothing;
* truncation cuts the file, or zero-extends it when the requested length
  exceeds the current one, fails on a read-only handle, and leaves the
  caller-visible position alone;
* offsets are 64-bit signed; the splice loops only ever produce nonnegative
  positions, so the position is carried as `Nat` while `seek` takes `Int`.

The chunk constant `BufferSize` is 1024, the value of the POSIX branch (the
Win32 branch uses 8192; the source treats the choice as a tuning constant).
-/

abbrev Byte := Nat

def BufferSize : Nat := 1024

inductive Position where
  | Beginning
  | Current
  | End
deriving DecidableEq

structure FileStream where
  file : List Byte
  pos : Nat
  readOnly : Bool
  isOpen : Bool
  eofLatch : Bool
deriving DecidableEq

/-- Content effect of a raw write at position `pos`: existing bytes are
overwritten in place, writing past end of file zero-fills the gap, and
writing zero bytes changes nothing. -/
def writeAt (file : List Byte) (pos : Nat) (data : List Byte) : List Byte :=
  if data.isEmpty then file
  else
    file.take pos ++ List.replicate (pos - file.length) 0 ++ data
      ++ file.drop (pos + data.length)

/-- `readFile(d->file, buffer)` with `buffer.size() = n` (`fread`/`ReadFile`):
returns the bytes actually read and the stream with its position advanced by
that count; a short read latches end-of-file, and a latched stream reads
nothing. -/
def readFile (s : FileStream) (n : Nat) : List Byte × FileStream :=
  if s.eofLatch then ([], s)
  else
    let r := (s.file.drop s.pos).take n
    (r, { s with pos := s.pos + r.length, eofLatch := decide (r.length < n) })

/-- `writeFile(d->file, buffer)` (`fwrite`/`WriteFile`): fails, writing
nothing, on a handle opened read-only or with the latch set; otherwise
splices the buffer in at the current position. -/
def writeFile (s : FileStream) (data : List Byte) : FileStream :=
  if s.readOnly || s.eofLatch then s
  else { s with file := writeAt s.file s.pos data, pos := s.pos + data.length }

/-- `FileStream::clear()` — `clearerr` on the C-library branch. -/
def FileStream.clear (s : FileStream) : FileStream :=
  { s with eofLatch := false }

/-- The absolute offset a `seek` resolves to for each origin. -/
def seekTarget (s : FileStream) (offs : Int) : Position → Int
  | Position.Beginning => offs
  | Position.Current => (s.pos : Int) + offs
  | Position.End => (s.file.length : Int) + offs

/-- `FileStream::seek(offset, p)`.  Follows the Win32 branch, where the
handling of a negative resulting offset is explicit in the source: the
backend rejects it (`ERROR_NEGATIVE_SEEK`) and the code then repositions to
the beginning of the file.  (The POSIX branch delegates to `fseeko`.) -/
def FileStream.seek (s : FileStream) (offs : Int) (p : Position) : FileStream :=
  if !s.isOpen then s
  else if seekTarget s offs p < 0 then { s with pos := 0 }
  else { s with pos := (seekTarget s offs p).toNat }

/-- `FileStream::tell()`. -/
def FileStream.tell (s : FileStream) : Nat := s.pos

/-- `FileStream::length()`: 0 on a closed stream, else the file's total size
(the POSIX branch computes it by seeking to the end and back, with no net
state change). -/
def FileStream.length (s : FileStream) : Nat :=
  if s.isOpen then s.file.length else 0

/-- `FileStream::truncate(length)` — `ftruncate`/`SetEndOfFile`. -/
def FileStream.truncate (s : FileStream) (newLength : Nat) : FileStream :=
  if s.readOnly then s
  else if newLength ≤ s.file.length then { s with file := s.file.take newLength }
  else { s with file := s.file ++ List.replicate (newLength - s.file.length) 0 }

/-- The size `FileStream::readBlock` passes to the result-buffer allocation:
the request is clamped when it exceeds both `BufferSize` and the file's
total length (`FileStream::length()`). -/
def readBlockRequested (s : FileStream) (len : Nat) : Nat :=
  if BufferSize < len ∧ s.file.length < len then s.file.length else len

/-- `FileStream::readBlock(length)`. -/
def FileStream.readBlock (s : FileStream) (len : Nat) : List Byte × FileStream :=
  if !s.isOpen then ([], s)
  else if len = 0 then ([], s)
  else readFile s (readBlockRequested s len)

/-- `FileStream::writeBlock(data)`. -/
def FileStream.writeBlock (s : FileStream) (data : List Byte) : FileStream :=
  if !s.isOpen then s
  else if s.readOnly then s
  else writeFile s data

/-- One round of
`while(data.size() - replace > bufferLength) bufferLength += BufferSize;`
with explicit fuel (each round adds a positive chunk, so `delta` rounds
always suffice). -/
def bufferLengthLoop (chunk delta : Nat) : Nat → Nat → Nat
  | 0, bl => bl
  | fuel + 1, bl =>
    if bl < delta then bufferLengthLoop chunk delta fuel (bl + chunk) else bl

/-- The working-buffer length the growing case of `insert` computes for the
growth delta `data.size() - replace`: start at one chunk and add whole
chunks while the delta still exceeds the buffer. -/
def computeBufferLength (chunk delta : Nat) : Nat :=
  bufferLengthLoop chunk delta delta chunk

/-- The copy loop of `FileStream::removeBlock`, with explicit fuel.  Returns
the stream after the loop together with the final `writePosition` (to which
the caller truncates).  Each round seeks to `readPosition`, reads up to the
buffer's current size, advances `readPosition` by the bytes actually read,
on a short read clears the latch and shrinks the buffer to the bytes
obtained, writes those bytes at `writePosition`, advances `writePosition`
by the same count and stops once a read returns nothing.  The fuel passed
by `removeBlock` exceeds any possible number of rounds. -/
def removeLoop : Nat → FileStream → Nat → Nat → Nat → FileStream × Nat
  | 0, s, _, wp, _ => (s, wp)
  | fuel + 1, s, rp, wp, bufSize =>
    let s1 := s.seek (rp : Int) Position.Beginning
    let p := readFile s1 bufSize
    let n := p.1.length
    let s2 := if n < bufSize then p.2.clear else p.2
    let s3 := s2.seek (wp : Int) Position.Beginning
    let s4 := writeFile s3 p.1
    if n = 0 then (s4, wp)
    else removeLoop fuel s4 (rp + n) (wp + n) (if n < bufSize then n else bufSize)

/-- `FileStream::removeBlock(start, length)`. -/
def FileStream.removeBlock (s : FileStream) (start length : Nat) : FileStream :=
  if !s.isOpen then s
  else
    let r := removeLoop (s.file.length + 2) s (start + length) start BufferSize
    r.1.truncate r.2

/-- The copy loop of the growing case of `FileStream::insert`, with explicit
fuel.  `buffer` is the pending block to write (initially `data` itself) and
`readSize` is the current size of the read-ahead holding buffer
(`aboutToOverwrite`), which the source shrinks to the bytes actually read.
Each round seeks to `readPosition`, reads ahead, advances `readPosition` by
the full `bufferLength` stride, clears the latch on a short read, writes the
pending block at `writePosition` through `writeBlock`, stops if the read
returned nothing, and otherwise hands the bytes just read to the next round.
The fuel passed by `insert` exceeds any possible number of rounds. -/
def insertLoop (bufferLength : Nat) :
    Nat → FileStream → Nat → Nat → List Byte → Nat → FileStream
  | 0, s, _, _, _, _ => s
  | fuel + 1, s, rp, wp, buffer, readSize =>
    let s1 := s.seek (rp : Int) Position.Beginning
    let p := readFile s1 readSize
    let n := p.1.length
    let s2 := if n < bufferLength then p.2.clear else p.2
    let s3 := s2.seek (wp : Int) Position.Beginning
    let s4 := s3.writeBlock buffer
    if n = 0 then s4
    else insertLoop bufferLength fuel s4 (rp + bufferLength) (wp + buffer.length) p.1 n

/-- `FileStream::insert(data, start, replace)`. -/
def FileStream.insert (s : FileStream) (data : List Byte) (start replace : Nat) :
    FileStream :=
  if !s.isOpen then s
  else if s.readOnly then s
  else if data.length = replace then
    (s.seek (start : Int) Position.Beginning).writeBlock data
  else if data.length < replace then
    (((s.seek (start : Int) Position.Beginning).writeBlock data).removeBlock
      (start + data.length) (replace - data.length))
  else
    let bufferLength := computeBufferLength BufferSize (data.length - replace)
    insertLoop bufferLength (s.file.length + 2) s (start + replace) start data bufferLength

/-- `insertLoop` instrumented with a per-round safety check: every byte of
the file present at read time that this round's write is about to overwrite
lies below the frontier of the region read so far (reads are contiguous from
`start + replace`, and `readPosition + bytesRead` is that frontier right
after this round's read, which the source performs before the write). -/
def insertLoopChecked (bufferLength : Nat) :
    Nat → FileStream → Nat → Nat → List Byte → Nat → FileStream × Bool
  | 0, s, _, _, _, _ => (s, true)
  | fuel + 1, s, rp, wp, buffer, readSize =>
    let s1 := s.seek (rp : Int) Position.Beginning
    let p := readFile s1 readSize
    let n := p.1.length
    let ok := decide (min (wp + buffer.length) s1.file.length ≤ rp + n)
    let s2 := if n < bufferLength then p.2.clear else p.2
    let s3 := s2.seek (wp : Int) Position.Beginning
    let s4 := s3.writeBlock buffer
    if n = 0 then (s4, ok)
    else
      let rest := insertLoopChecked bufferLength fuel s4 (rp + bufferLength)
        (wp + buffer.length) p.1 n
      (rest.1, ok && rest.2)

/-- `FileStream.insert` with the growing-case loop replaced by its checked
variant; the non-growing branches perform no read-ahead, so there is nothing
to check there. -/
def insertChecked (s : FileStream) (data : List Byte) (start replace : Nat) :
    FileStream × Bool :=
  if !s.isOpen then (s, true)
  else if s.readOnly then (s, true)
  else if data.length = replace then
    ((s.seek (start : Int) Position.Beginning).writeBlock data, true)
  else if data.length < replace then
    ((((s.seek (start : Int) Position.Beginning).writeBlock data).removeBlock
      (start + data.length) (replace - data.length)), true)
  else
    let bufferLength := computeBufferLength BufferSize (data.length - replace)
    insertLoopChecked bufferLength (s.file.length + 2) s (start + replace) start data
      bufferLength

/-- The intended contents after replacing the `replace` bytes at `start` of
contents `F` by `data`. -/
def spliceResult (F data : List Byte) (start replace : Nat) : List Byte :=
  F.take start ++ data ++ F.drop (start + replace)

/-! ### Step lemmas for the primitives on explicit states -/

theorem seek_nat (f : List Byte) (q n : Nat) (ro lat : Bool) :
    FileStream.seek ⟨f, q, ro, true, lat⟩ (n : Int) Position.Beginning
      = ⟨f, n, ro, true, lat⟩ := by
  simp [FileStream.seek, seekTarget]

theorem readFile_nolatch (f : List Byte) (q n : Nat) (ro : Bool) :
    readFile ⟨f, q, ro, true, false⟩ n
      = ((f.drop q).take n,
         ⟨f, q + ((f.drop q).take n).length, ro, true,
          decide (((f.drop q).take n).length < n)⟩) := by
  simp [readFile]

theorem writeFile_rw (f : List Byte) (q : Nat) (data : List Byte) :
    writeFile ⟨f, q, false, true, false⟩ data
      = ⟨writeAt f q data, q + data.length, false, true, false⟩ := by
  simp [writeFile]

theorem writeBlock_rw (f : List Byte) (q : Nat) (data : List Byte) :
    FileStream.writeBlock ⟨f, q, false, true, false⟩ data
      = ⟨writeAt f q data, q + data.length, false, true, false⟩ := by
  simp [FileStream.writeBlock, writeFile]

theorem clear_rw (f : List Byte) (q : Nat) (ro op lat : Bool) :
    FileStream.clear ⟨f, q, ro, op, lat⟩ = ⟨f, q, ro, op, false⟩ := rfl

/-! ### `writeAt` algebra -/

theorem writeAt_nil (file : List Byte) (pos : Nat) : writeAt file pos [] = file := rfl

theorem writeAt_eq_of_le (file data : List Byte) (pos : Nat) (h : pos ≤ file.length) :
    writeAt file pos data = file.take pos ++ data ++ file.drop (pos + data.length) := by
  unfold writeAt
  rcases data with _ | ⟨b, data⟩
  · simp
  · simp only [List.isEmpty_cons, if_false, Bool.false_eq_true]
    have : pos - file.length = 0 := by omega
    rw [this]
    simp [List.append_assoc]

/-- Length of a file in loop-invariant form. -/
theorem invfile_length (R F : List Byte) (wp : Nat) (hwp : wp ≤ R.length) :
    (R.take wp ++ F.drop wp).length = max wp F.length := by
  simp [List.length_append, List.length_take, List.length_drop]
  omega

/-- Dropping at or beyond the write frontier of a loop-invariant file reads
the original contents. -/
theorem invfile_drop (R F : List Byte) (wp rp : Nat) (hwp : wp ≤ R.length)
    (hle : wp ≤ rp) : (R.take wp ++ F.drop wp).drop rp = F.drop rp := by
  have h1 : (R.take wp).length = wp := by simp [List.length_take]; omega
  have h2 : rp = (R.take wp).length + (rp - wp) := by omega
  rw [h2, List.drop_append, List.drop_drop, h1]

/-- Writing the next slice of `R` at the write frontier advances the
invariant. -/
theorem writeAt_invfile (R F data : List Byte) (wp : Nat)
    (hdata : data = (R.drop wp).take data.length)
    (hend : wp + data.length ≤ R.length) (hwpF : wp ≤ F.length) :
    writeAt (R.take wp ++ F.drop wp) wp data
      = R.take (wp + data.length) ++ F.drop (wp + data.length) := by
  have hwp : wp ≤ R.length := by omega
  have hlen : (R.take wp ++ F.drop wp).length = max wp F.length :=
    invfile_length R F wp hwp
  have htk : (R.take wp).length = wp := by simp [List.length_take]; omega
  rw [writeAt_eq_of_le _ _ _ (by omega)]
  rw [List.take_left' htk, invfile_drop R F wp (wp + data.length) hwp (by omega)]
  rw [List.take_add]
  rw [← hdata]

/-- The final write of the loop: the pending buffer is the whole rest of `R`,
so the write completes the new contents exactly. -/
theorem writeAt_invfile_last (R F data : List Byte) (wp : Nat)
    (hdata : data = R.drop wp) (hwp : wp ≤ R.length) (hF : F.length ≤ R.length) :
    writeAt (R.take wp ++ F.drop wp) wp data = R := by
  have hlen : (R.take wp ++ F.drop wp).length = max wp F.length :=
    invfile_length R F wp hwp
  have htk : (R.take wp).length = wp := by simp [List.length_take]; omega
  have hdl : data.length = R.length - wp := by rw [hdata]; simp
  rw [writeAt_eq_of_le _ _ _ (by omega)]
  rw [List.take_left' htk]
  have hnil : (R.take wp ++ F.drop wp).drop (wp + data.length) = [] := by
    apply List.drop_of_length_le
    omega
  rw [hnil, hdata]
  simp

/-! ### The buffer-length computation -/

theorem bufferLengthLoop_ge (chunk delta : Nat) :
    ∀ fuel bl, delta ≤ bl + fuel * chunk →
      delta ≤ bufferLengthLoop chunk delta fuel bl := by
  intro fuel
  induction fuel with
  | zero => intro bl h; simpa [bufferLengthLoop] using h
  | succ fuel ih =>
    intro bl h
    rw [bufferLengthLoop]
    split
    · apply ih
      have : (fuel + 1) * chunk = fuel * chunk + chunk := by ring
      omega
    · omega

theorem bufferLengthLoop_le (chunk delta : Nat) :
    ∀ fuel bl, bl ≤ bufferLengthLoop chunk delta fuel bl := by
  intro fuel
  induction fuel with
  | zero => intro bl; simp [bufferLengthLoop]
  | succ fuel ih =>
    intro bl
    rw [bufferLengthLoop]
    split
    · exact le_trans (by omega) (ih (bl + chunk))
    · omega

theorem bufferLengthLoop_mod (chunk delta : Nat) :
    ∀ fuel bl, bl % chunk = 0 → bufferLengthLoop chunk delta fuel bl % chunk = 0 := by
  intro fuel
  induction fuel with
  | zero => intro bl h; simpa [bufferLengthLoop] using h
  | succ fuel ih =>
    intro bl h
    rw [bufferLengthLoop]
    split
    · exact ih (bl + chunk) (by rw [Nat.add_mod_right]; exact h)
    · exact h

theorem bufferLengthLoop_min (chunk delta : Nat) (hc : 0 < chunk) :
    ∀ fuel bl, bl % chunk = 0 →
      ∀ m, m % chunk = 0 → delta ≤ m → bl ≤ m →
        bufferLengthLoop chunk delta fuel bl ≤ m := by
  intro fuel
  induction fuel with
  | zero => intro bl _ m _ _ hbl; simpa [bufferLengthLoop] using hbl
  | succ fuel ih =>
    intro bl hbl m hm hdm hblm
    rw [bufferLengthLoop]
    split
    · apply ih (bl + chunk) (by rw [Nat.add_mod_right]; exact hbl) m hm hdm
      rcases Nat.eq_or_lt_of_le hblm with h | h
      · omega
      · have hdvd : chunk ∣ m - bl := by
          apply Nat.dvd_sub' (Nat.dvd_of_mod_eq_zero hm) (Nat.dvd_of_mod_eq_zero hbl)
        have := Nat.le_of_dvd (by omega) hdvd
        omega
    · exact hblm

theorem le_computeBufferLength (chunk delta : Nat) (hc : 0 < chunk) :
    delta ≤ computeBufferLength chunk delta := by
  apply bufferLengthLoop_ge
  have : delta ≤ delta * chunk := Nat.le_mul_of_pos_right delta hc
  omega

theorem chunk_le_computeBufferLength (chunk delta : Nat) :
    chunk ≤ computeBufferLength chunk delta :=
  bufferLengthLoop_le chunk delta delta chunk

theorem computeBufferLength_mod (chunk delta : Nat) :
    computeBufferLength chunk delta % chunk = 0 :=
  bufferLengthLoop_mod chunk delta delta chunk (Nat.mod_self chunk)

theorem computeBufferLength_min (chunk delta : Nat) (hc : 0 < chunk) :
    ∀ m, m % chunk = 0 → delta ≤ m → chunk ≤ m →
      computeBufferLength chunk delta ≤ m := by
  intro m hm hdm hcm
  exact bufferLengthLoop_min chunk delta hc delta chunk (Nat.mod_self chunk) m hm hdm hcm

/-! ### Shift lemmas relating the new contents to the original tail -/

/-- Beyond the insertion point, the new contents are the original ones
shifted right by the growth delta. -/
theorem spliceResult_drop (F d : List Byte) (start r p : Nat)
    (hr : r ≤ d.length) (hstart : start ≤ F.length) (hp : start + r ≤ p) :
    (F.take start ++ d ++ F.drop (start + r)).drop (p + (d.length - r)) = F.drop p := by
  have h1 : (F.take start ++ d).length = start + d.length := by
    simp [List.length_take]
    omega
  have h2 : p + (d.length - r) = (F.take start ++ d).length + (p - (start + r)) := by
    rw [h1]; omega
  rw [h2, List.drop_append, List.drop_drop]
  congr 1
  omega

/-- Beyond the removal point, the shrunken contents are the original ones
shifted left by the removed length. -/
theorem removeResult_drop (F : List Byte) (start len wp : Nat)
    (hstart : start ≤ F.length) (hwp : start ≤ wp) :
    (F.take start ++ F.drop (start + len)).drop wp = F.drop (wp + len) := by
  have h1 : (F.take start).length = start := by simp [List.length_take]; omega
  have h2 : wp = (F.take start).length + (wp - start) := by omega
  rw [h2, List.drop_append, List.drop_drop]
  congr 1
  omega

/-! ### Correctness of the growing-insert loop -/

/-- Draining round: the read cursor is past end of file, the pending buffer
is exactly the missing rest of the new contents `R`; one more round writes
it and stops with the file equal to `R`. -/
theorem insertLoop_drain (BL : Nat) (R F : List Byte) (hBL : 0 < BL)
    (hFR : F.length ≤ R.length) :
    ∀ fuel rp wp (buffer : List Byte) readSize q,
      1 ≤ fuel →
      buffer = R.drop wp →
      wp ≤ R.length →
      max wp F.length ≤ rp →
      insertLoop BL fuel ⟨R.take wp ++ F.drop wp, q, false, true, false⟩ rp wp buffer readSize
        = ⟨R, R.length, false, true, false⟩ := by
  intro fuel rp wp buffer readSize q hfuel hbuf hwp hrp
  obtain ⟨fl, rfl⟩ : ∃ fl, fuel = fl + 1 := ⟨fuel - 1, by omega⟩
  have hfile_len : (R.take wp ++ F.drop wp).length = max wp F.length :=
    invfile_length R F wp hwp
  have hread : ((R.take wp ++ F.drop wp).drop rp).take readSize = [] := by
    rw [List.drop_of_length_le (by omega)]
    simp
  have hwrite : writeAt (R.take wp ++ F.drop wp) wp buffer = R :=
    writeAt_invfile_last R F buffer wp hbuf hwp hFR
  have hpos : wp + buffer.length = R.length := by
    rw [hbuf]
    simp [List.length_drop]
    omega
  simp [insertLoop, seek_nat, readFile_nolatch, hread, clear_rw, writeBlock_rw, hBL,
    hwrite, hpos]

/-- Steady state of the growing-insert loop: so far only full strides have
been read, the file holds the new contents `R` up to the write frontier and
the untouched originals beyond it, and the pending buffer is the next slice
of `R`, ending exactly one growth delta past the read cursor.  From any such
state, with enough fuel, the loop produces exactly `R`. -/
theorem insertLoop_main (BL : Nat) (R F d : List Byte) (start r : Nat)
    (hBL0 : 0 < BL) (hr : r < d.length) (hstart : start + r ≤ F.length)
    (hBL : d.length - r ≤ BL)
    (hR : R = F.take start ++ d ++ F.drop (start + r)) :
    ∀ fuel rp wp (buffer : List Byte) q,
      wp + buffer.length = rp + (d.length - r) →
      buffer = (R.drop wp).take buffer.length →
      rp ≤ F.length →
      d.length - r ≤ buffer.length →
      start + r ≤ rp →
      F.length + BL ≤ rp + fuel * BL →
      insertLoop BL fuel ⟨R.take wp ++ F.drop wp, q, false, true, false⟩ rp wp buffer BL
        = ⟨R, R.length, false, true, false⟩ := by
  have hRlen : R.length = F.length + (d.length - r) := by
    rw [hR]
    simp [List.length_take, List.length_drop]
    omega
  intro fuel
  induction fuel with
  | zero =>
    intro rp wp buffer q h1 h2 h3 h4 h5 h6
    exfalso
    omega
  | succ fuel ih =>
    intro rp wp buffer q h1 h2 h3 h4 h5 h6
    have hexp : (fuel + 1) * BL = fuel * BL + BL := by ring
    have hwrp : wp ≤ rp := by omega
    have hwpF : wp ≤ F.length := le_trans hwrp h3
    have hwpR : wp ≤ R.length := by omega
    have hwbR : wp + buffer.length ≤ R.length := by omega
    have hfl : (R.take wp ++ F.drop wp).length = max wp F.length :=
      invfile_length R F wp hwpR
    have hdropinv : (R.take wp ++ F.drop wp).drop rp = F.drop rp :=
      invfile_drop R F wp rp hwpR hwrp
    have hna : ((F.drop rp).take BL).length = min BL (F.length - rp) := by
      simp [List.length_take, List.length_drop]
    by_cases hn0 : ((F.drop rp).take BL).length = 0
    · -- the read returned nothing: write the pending buffer and stop
      have hrpF : rp = F.length := by omega
      have hbfull : buffer = R.drop wp := by
        rw [h2]
        apply List.take_of_length_le
        simp [List.length_drop]
        omega
      have hread : ((R.take wp ++ F.drop wp).drop rp).take BL = [] := by
        rw [hdropinv]
        exact List.length_eq_zero.mp hn0
      have hwrite : writeAt (R.take wp ++ F.drop wp) wp buffer = R :=
        writeAt_invfile_last R F buffer wp hbfull hwpR (by omega)
      have hpos : wp + buffer.length = R.length := by omega
      simp [insertLoop, seek_nat, readFile_nolatch, hread, clear_rw, writeBlock_rw,
        hBL0, hwrite, hpos]
    · by_cases hnBL : ((F.drop rp).take BL).length < BL
      · -- short read: everything left has now been read; one draining round remains
        have hn : ((F.drop rp).take BL).length = F.length - rp := by omega
        have hfuel1 : 1 ≤ fuel := by
          rcases Nat.eq_zero_or_pos fuel with hz | hp
          · subst hz; exfalso; omega
          · exact hp
        have hread : ((R.take wp ++ F.drop wp).drop rp).take BL = (F.drop rp).take BL := by
          rw [hdropinv]
        have hwrite : writeAt (R.take wp ++ F.drop wp) wp buffer
            = R.take (wp + buffer.length) ++ F.drop (wp + buffer.length) :=
          writeAt_invfile R F buffer wp h2 hwbR hwpF
        have hafull : (F.drop rp).take BL = F.drop rp := by
          apply List.take_of_length_le
          simp [List.length_drop]
          omega
        have hshift : R.drop (wp + buffer.length) = F.drop rp := by
          rw [h1, hR]
          exact spliceResult_drop F d start r rp (by omega) (by omega) h5
        have hdrain := insertLoop_drain BL R F hBL0 (by omega) fuel (rp + BL)
          (wp + buffer.length) ((F.drop rp).take BL) ((F.drop rp).take BL).length
          (wp + buffer.length) hfuel1 (by rw [hafull, hshift]) hwbR (by omega)
        simp only [insertLoop, seek_nat, readFile_nolatch, hread]
        rw [if_pos hnBL, if_neg hn0]
        simp only [clear_rw, seek_nat, writeBlock_rw, hwrite]
        exact hdrain
      · -- full read: one more steady round
        have haBL : ((F.drop rp).take BL).length = BL := by
          have : ((F.drop rp).take BL).length ≤ BL := by
            simp [List.length_take]
          omega
        have hrpBL : rp + BL ≤ F.length := by omega
        have hread : ((R.take wp ++ F.drop wp).drop rp).take BL = (F.drop rp).take BL := by
          rw [hdropinv]
        have hwrite : writeAt (R.take wp ++ F.drop wp) wp buffer
            = R.take (wp + buffer.length) ++ F.drop (wp + buffer.length) :=
          writeAt_invfile R F buffer wp h2 hwbR hwpF
        have hdec : decide (((F.drop rp).take BL).length < BL) = false :=
          decide_eq_false hnBL
        have hshift : R.drop (wp + buffer.length) = F.drop rp := by
          rw [h1, hR]
          exact spliceResult_drop F d start r rp (by omega) (by omega) h5
        have hrec := ih (rp + BL) (wp + buffer.length) ((F.drop rp).take BL)
          (wp + buffer.length) (by omega)
          (by rw [hshift]; rw [List.take_eq_take]; omega)
          hrpBL (by omega) (by omega) (by omega)
        simp only [insertLoop, seek_nat, readFile_nolatch, hread]
        rw [if_neg hnBL, if_neg hn0]
        have hdec2 : (decide (BL < BL)) = false := decide_eq_false (by omega)
        simp only [hdec, hdec2, seek_nat, writeBlock_rw, hwrite, haBL]
        exact hrec

/-! ### Correctness of the removeBlock loop -/

/-- Final round of the removal loop: the read cursor is at or past end of
file, so the round reads nothing, writes nothing and stops. -/
theorem removeLoop_drain (Rr F : List Byte) :
    ∀ fuel (bufSize rp wp q : Nat),
      1 ≤ fuel → 0 < bufSize →
      wp ≤ Rr.length →
      max wp F.length ≤ rp →
      removeLoop fuel ⟨Rr.take wp ++ F.drop wp, q, false, true, false⟩ rp wp bufSize
        = (⟨Rr.take wp ++ F.drop wp, wp, false, true, false⟩, wp) := by
  intro fuel bufSize rp wp q hfuel hbs hwp hrp
  obtain ⟨fl, rfl⟩ : ∃ fl, fuel = fl + 1 := ⟨fuel - 1, by omega⟩
  have hfile_len : (Rr.take wp ++ F.drop wp).length = max wp F.length :=
    invfile_length Rr F wp hwp
  have hread : ((Rr.take wp ++ F.drop wp).drop rp).take bufSize = [] := by
    rw [List.drop_of_length_le (by omega)]
    simp
  simp [removeLoop, seek_nat, readFile_nolatch, hread, clear_rw, writeFile_rw, hbs,
    writeAt_nil]

/-- Steady state of the removal loop: the file holds the shrunken contents
`Rr` up to the write frontier and the untouched originals beyond it, with
the read cursor exactly `len` bytes ahead.  With enough fuel the loop
finishes with the shrunken contents in place, the leftover original tail
still present beyond them, and the final write position `F.length - len`. -/
theorem removeLoop_main (B : Nat) (F : List Byte) (start len : Nat)
    (hB : 0 < B) (hstart : start + len ≤ F.length) :
    ∀ fuel rp wp q,
      rp = wp + len →
      start ≤ wp →
      rp ≤ F.length →
      F.length + B ≤ rp + fuel * B →
      removeLoop fuel
          ⟨(F.take start ++ F.drop (start + len)).take wp ++ F.drop wp, q,
           false, true, false⟩ rp wp B
        = (⟨(F.take start ++ F.drop (start + len)) ++ F.drop (F.length - len),
            F.length - len, false, true, false⟩, F.length - len) := by
  have hRlen : (F.take start ++ F.drop (start + len)).length = F.length - len := by
    simp [List.length_take, List.length_drop]
    omega
  intro fuel
  induction fuel with
  | zero =>
    intro rp wp q h1 h2 h3 h6
    exfalso
    omega
  | succ fuel ih =>
    intro rp wp q h1 h2 h3 h6
    have hexp : (fuel + 1) * B = fuel * B + B := by ring
    have hwrp : wp ≤ rp := by omega
    have hwpF : wp ≤ F.length := le_trans hwrp h3
    have hwpR : wp ≤ (F.take start ++ F.drop (start + len)).length := by omega
    have hdropinv :
        ((F.take start ++ F.drop (start + len)).take wp ++ F.drop wp).drop rp
          = F.drop rp :=
      invfile_drop _ F wp rp hwpR hwrp
    have hna : ((F.drop rp).take B).length = min B (F.length - rp) := by
      simp [List.length_take, List.length_drop]
    have hshift : (F.take start ++ F.drop (start + len)).drop wp = F.drop rp := by
      rw [removeResult_drop F start len wp (by omega) h2, ← h1]
    by_cases hn0 : ((F.drop rp).take B).length = 0
    · -- nothing left to copy: this round is already the final one
      have hrpF : rp = F.length := by omega
      have hwpv : wp = F.length - len := by omega
      have hdr := removeLoop_drain (F.take start ++ F.drop (start + len)) F
        (fuel + 1) B rp wp q (by omega) hB hwpR (by omega)
      rw [hdr, hwpv]
      have htk : (F.take start ++ F.drop (start + len)).take (F.length - len)
          = F.take start ++ F.drop (start + len) :=
        List.take_of_length_le (by omega)
      rw [htk]
    · by_cases hnB : ((F.drop rp).take B).length < B
      · -- short read: this round copies the rest; one empty round remains
        have hn : ((F.drop rp).take B).length = F.length - rp := by omega
        have hfuel1 : 1 ≤ fuel := by
          rcases Nat.eq_zero_or_pos fuel with hz | hp
          · subst hz; exfalso; omega
          · exact hp
        have hafull : (F.drop rp).take B = F.drop rp := by
          apply List.take_of_length_le
          simp [List.length_drop]
          omega
        have hdata : (F.drop rp).take B
            = ((F.take start ++ F.drop (start + len)).drop wp).take
                ((F.drop rp).take B).length := by
          rw [hshift, hn, hafull]
          symm
          apply List.take_of_length_le
          simp [List.length_drop]
        have hwrite : writeAt
            ((F.take start ++ F.drop (start + len)).take wp ++ F.drop wp) wp
            ((F.drop rp).take B)
            = (F.take start ++ F.drop (start + len)).take
                (wp + ((F.drop rp).take B).length)
              ++ F.drop (wp + ((F.drop rp).take B).length) :=
          writeAt_invfile _ F _ wp hdata (by omega) hwpF
        have hwpv : wp + ((F.drop rp).take B).length = F.length - len := by omega
        have hdr := removeLoop_drain (F.take start ++ F.drop (start + len)) F fuel
          ((F.drop rp).take B).length (rp + ((F.drop rp).take B).length)
          (wp + ((F.drop rp).take B).length) (wp + ((F.drop rp).take B).length)
          hfuel1 (by omega) (by omega) (by omega)
        simp only [removeLoop, seek_nat, readFile_nolatch, hdropinv]
        simp only [if_neg hn0, if_pos hnB]
        simp only [clear_rw, seek_nat, writeFile_rw, hwrite]
        rw [hdr]
        rw [hwpv]
        have htk : (F.take start ++ F.drop (start + len)).take (F.length - len)
            = F.take start ++ F.drop (start + len) :=
          List.take_of_length_le (by omega)
        rw [htk]
      · -- full read: one more steady round
        have haB : ((F.drop rp).take B).length = B := by
          have : ((F.drop rp).take B).length ≤ B := by
            simp [List.length_take]
          omega
        have hrpB : rp + B ≤ F.length := by omega
        have hdec : decide (((F.drop rp).take B).length < B) = false :=
          decide_eq_false hnB
        have hdata : (F.drop rp).take B
            = ((F.take start ++ F.drop (start + len)).drop wp).take
                ((F.drop rp).take B).length := by
          rw [hshift, haB]
        have hwrite : writeAt
            ((F.take start ++ F.drop (start + len)).take wp ++ F.drop wp) wp
            ((F.drop rp).take B)
            = (F.take start ++ F.drop (start + len)).take
                (wp + ((F.drop rp).take B).length)
              ++ F.drop (wp + ((F.drop rp).take B).length) :=
          writeAt_invfile _ F _ wp hdata (by omega) hwpF
        have hrec := ih (rp + B) (wp + B) (wp + B) (by omega) (by omega) hrpB
          (by omega)
        have hdec2 : decide (B < B) = false := decide_eq_false (by omega)
        simp only [removeLoop, seek_nat, readFile_nolatch, hdropinv]
        simp only [if_neg hn0, if_neg hnB]
        simp only [hdec, hdec2, seek_nat, writeFile_rw, hwrite, haB, ite_self]
        exact hrec

/-! ### End-to-end specifications of the splice operations -/

/-- Growing case of `insert` on an open, writable stream with a clear latch:
the file becomes the original with the `replace` bytes at `start` replaced
by `data`, and the stream stays open and writable with a clear latch. -/
theorem insert_grow_spec (F d : List Byte) (q start r : Nat)
    (hr : r < d.length) (hstart : start + r ≤ F.length) :
    FileStream.insert ⟨F, q, false, true, false⟩ d start r
      = ⟨F.take start ++ d ++ F.drop (start + r),
         (F.take start ++ d ++ F.drop (start + r)).length, false, true, false⟩ := by
  have hchunk : 0 < BufferSize := by norm_num [BufferSize]
  have hBL0 : 0 < computeBufferLength BufferSize (d.length - r) :=
    lt_of_lt_of_le hchunk (chunk_le_computeBufferLength _ _)
  have hBL : d.length - r ≤ computeBufferLength BufferSize (d.length - r) :=
    le_computeBufferLength _ _ hchunk
  have hne : ¬ (d.length = r) := by omega
  have hnlt : ¬ (d.length < r) := by omega
  have hAlen : (F.take start).length = start := by
    simp [List.length_take]
    omega
  have htkR : (F.take start ++ d ++ F.drop (start + r)).take start = F.take start := by
    rw [List.append_assoc, List.take_append_of_le_length (by omega), List.take_take]
    simp
  have hinit : (F.take start ++ d ++ F.drop (start + r)).take start ++ F.drop start
      = F := by
    rw [htkR, List.take_append_drop]
  have hbuf : d = ((F.take start ++ d ++ F.drop (start + r)).drop start).take d.length := by
    rw [List.append_assoc, List.drop_left' hAlen, List.take_left]
  have hfuel : F.length + computeBufferLength BufferSize (d.length - r)
      ≤ (start + r) + (F.length + 2) * computeBufferLength BufferSize (d.length - r) := by
    have h1 : (F.length + 2) * computeBufferLength BufferSize (d.length - r)
        = F.length * computeBufferLength BufferSize (d.length - r)
          + 2 * computeBufferLength BufferSize (d.length - r) := by ring
    have h2 : F.length ≤ F.length * computeBufferLength BufferSize (d.length - r) :=
      Nat.le_mul_of_pos_right _ hBL0
    omega
  have hmain := insertLoop_main (computeBufferLength BufferSize (d.length - r))
    (F.take start ++ d ++ F.drop (start + r)) F d start r hBL0 hr hstart hBL rfl
    (F.length + 2) (start + r) start d q (by omega) hbuf hstart (by omega)
    (le_refl _) hfuel
  rw [hinit] at hmain
  simp only [FileStream.insert, Bool.not_true, if_false, if_neg hne, if_neg hnlt]
  simp only [Bool.false_eq_true, if_false]
  exact hmain

/-- `removeBlock` on an open, writable stream with a clear latch and an
in-bounds block: the bytes from `start + len` on are shifted down to
`start`, the loop's final write position is `F.length - len`, and the file
is truncated there. -/
theorem removeBlock_spec (F : List Byte) (q start len : Nat)
    (hstart : start + len ≤ F.length) :
    FileStream.removeBlock ⟨F, q, false, true, false⟩ start len
      = ⟨F.take start ++ F.drop (start + len), F.length - len, false, true, false⟩ := by
  have hchunk : 0 < BufferSize := by norm_num [BufferSize]
  have hRlen : (F.take start ++ F.drop (start + len)).length = F.length - len := by
    simp [List.length_take, List.length_drop]
    omega
  have hAlen : (F.take start).length = start := by
    simp [List.length_take]
    omega
  have htkR : (F.take start ++ F.drop (start + len)).take start = F.take start := by
    rw [List.take_append_of_le_length (by omega), List.take_take]
    simp
  have hinit : (F.take start ++ F.drop (start + len)).take start ++ F.drop start
      = F := by
    rw [htkR, List.take_append_drop]
  have hfuel : F.length + BufferSize
      ≤ (start + len) + (F.length + 2) * BufferSize := by
    have h1 : (F.length + 2) * BufferSize = F.length * BufferSize + 2 * BufferSize := by
      ring
    have h2 : F.length ≤ F.length * BufferSize := Nat.le_mul_of_pos_right _ hchunk
    omega
  have hmain := removeLoop_main BufferSize F start len hchunk hstart
    (F.length + 2) (start + len) start q rfl (le_refl _) hstart hfuel
  rw [hinit] at hmain
  have hflen : ((F.take start ++ F.drop (start + len)) ++ F.drop (F.length - len)).length
      = F.length := by
    simp [List.length_take, List.length_drop]
    omega
  have htrunc : FileStream.truncate
      ⟨(F.take start ++ F.drop (start + len)) ++ F.drop (F.length - len),
       F.length - len, false, true, false⟩ (F.length - len)
      = ⟨F.take start ++ F.drop (start + len), F.length - len, false, true, false⟩ := by
    simp only [FileStream.truncate]
    rw [if_neg (by simp), if_pos (by omega)]
    rw [List.take_left' (by omega)]
  simp only [FileStream.removeBlock, Bool.not_true, if_false]
  simp only [Bool.false_eq_true, if_false]
  rw [hmain]
  exact htrunc

/-! ### Generic preservation lemmas -/

@[simp]
theorem seek_file (s : FileStream) (o : Int) (p : Position) :
    (s.seek o p).file = s.file := by
  unfold FileStream.seek
  split
  · rfl
  · split <;> rfl

@[simp]
theorem seek_readOnly (s : FileStream) (o : Int) (p : Position) :
    (s.seek o p).readOnly = s.readOnly := by
  unfold FileStream.seek
  split
  · rfl
  · split <;> rfl

@[simp]
theorem seek_isOpen (s : FileStream) (o : Int) (p : Position) :
    (s.seek o p).isOpen = s.isOpen := by
  unfold FileStream.seek
  split
  · rfl
  · split <;> rfl

@[simp]
theorem readFile_snd_file (s : FileStream) (n : Nat) :
    (readFile s n).2.file = s.file := by
  unfold readFile
  split <;> rfl

@[simp]
theorem readFile_snd_readOnly (s : FileStream) (n : Nat) :
    (readFile s n).2.readOnly = s.readOnly := by
  unfold readFile
  split <;> rfl

@[simp]
theorem readFile_snd_isOpen (s : FileStream) (n : Nat) :
    (readFile s n).2.isOpen = s.isOpen := by
  unfold readFile
  split <;> rfl

theorem writeFile_keeps (s : FileStream) (d : List Byte) (h : s.readOnly = true) :
    writeFile s d = s := by
  unfold writeFile
  rw [h]
  simp

/-- On a read-only handle the removal loop never changes the file: every
write fails at the backend. -/
theorem removeLoop_readOnly : ∀ fuel (s : FileStream) rp wp bs, s.readOnly = true →
    (removeLoop fuel s rp wp bs).1.file = s.file ∧
    (removeLoop fuel s rp wp bs).1.readOnly = true := by
  intro fuel
  induction fuel with
  | zero => intro s rp wp bs h; exact ⟨rfl, h⟩
  | succ fuel ih =>
    intro s rp wp bs h
    simp only [removeLoop]
    set p := readFile (s.seek (rp : Int) Position.Beginning) bs with hp
    set s2 := if p.1.length < bs then p.2.clear else p.2 with hs2def
    have h2 : s2.readOnly = true ∧ s2.file = s.file := by
      rw [hs2def]
      split <;> constructor <;> simp [FileStream.clear, hp, h]
    have h3 : (s2.seek (wp : Int) Position.Beginning).readOnly = true ∧
        (s2.seek (wp : Int) Position.Beginning).file = s.file := by
      constructor <;> simp [h2.1, h2.2]
    have h4 : writeFile (s2.seek (wp : Int) Position.Beginning) p.1
        = s2.seek (wp : Int) Position.Beginning :=
      writeFile_keeps _ _ h3.1
    rw [h4]
    split
    · exact ⟨h3.2, h3.1⟩
    · have hrec := ih (s2.seek (wp : Int) Position.Beginning) (rp + p.1.length)
        (wp + p.1.length) (if p.1.length < bs then p.1.length else bs) h3.1
      exact ⟨hrec.1.trans h3.2, hrec.2⟩

/-- The final write position computed by the removal loop as `removeBlock`
invokes it, for an in-bounds block on an open writable stream. -/
theorem removeLoop_final_writePosition (F : List Byte) (q start len : Nat)
    (hstart : start + len ≤ F.length) :
    (removeLoop (F.length + 2) ⟨F, q, false, true, false⟩ (start + len) start
        BufferSize).2 = F.length - len := by
  have hchunk : 0 < BufferSize := by norm_num [BufferSize]
  have hAlen : (F.take start).length = start := by
    simp [List.length_take]
    omega
  have htkR : (F.take start ++ F.drop (start + len)).take start = F.take start := by
    rw [List.take_append_of_le_length (by omega), List.take_take]
    simp
  have hinit : (F.take start ++ F.drop (start + len)).take start ++ F.drop start
      = F := by
    rw [htkR, List.take_append_drop]
  have hfuel : F.length + BufferSize
      ≤ (start + len) + (F.length + 2) * BufferSize := by
    have h1 : (F.length + 2) * BufferSize = F.length * BufferSize + 2 * BufferSize := by
      ring
    have h2 : F.length ≤ F.length * BufferSize := Nat.le_mul_of_pos_right _ hchunk
    omega
  have hmain := removeLoop_main BufferSize F start len hchunk hstart
    (F.length + 2) (start + len) start q rfl (le_refl _) hstart hfuel
  rw [hinit] at hmain
  rw [hmain]

/-! ### Claim theorems -/

/-- **C1.** On an open writable stream with a clear latch, for every `data`
and `replace` with `data.length > replace` and `start + replace ≤ L`,
`insert data start replace` yields a file of length
`L + (data.length - replace)` whose bytes before `start` are unchanged,
whose bytes at `[start, start + data.length)` are `data`, and whose bytes
from `start + data.length` on are the original ones from `start + replace`
on. -/
theorem insert_grow_correct (s : FileStream) (data : List Byte) (start replace : Nat)
    (hopen : s.isOpen = true) (hro : s.readOnly = false) (hlatch : s.eofLatch = false)
    (hr : replace < data.length) (hstart : start + replace ≤ s.file.length) :
    (s.insert data start replace).file.length
      = s.file.length + (data.length - replace) ∧
    (s.insert data start replace).file.take start = s.file.take start ∧
    ((s.insert data start replace).file.drop start).take data.length = data ∧
    (s.insert data start replace).file.drop (start + data.length)
      = s.file.drop (start + replace) := by
  have hs : s = ⟨s.file, s.pos, false, true, false⟩ := by
    rcases s with ⟨f, p, ro, op, lat⟩
    simp_all
  rw [hs, insert_grow_spec s.file data s.pos start replace hr hstart]
  dsimp only
  refine ⟨?_, ?_, ?_, ?_⟩
  · simp [List.length_take, List.length_drop]
    omega
  · rw [List.append_assoc,
      List.take_append_of_le_length (by simp [List.length_take]; omega), List.take_take]
    simp
  · rw [List.append_assoc, List.drop_left' (by simp [List.length_take]; omega),
      List.take_left]
  · rw [List.drop_left' (by simp [List.length_take]; omega)]

/-- Witness for C1 at the spec's concrete scenario: inserting `"12345"` over
`"CDE"` in `"ABCDEFGHIJ"` yields `"AB12345FGHIJ"` (byte values). -/
theorem insert_grow_correct_witness :
    ((3 : Nat) < ([49, 50, 51, 52, 53] : List Byte).length ∧
     2 + 3 ≤ ([65, 66, 67, 68, 69, 70, 71, 72, 73, 74] : List Byte).length) ∧
    ((FileStream.insert ⟨[65, 66, 67, 68, 69, 70, 71, 72, 73, 74], 0, false, true, false⟩
        [49, 50, 51, 52, 53] 2 3).file.length
       = ([65, 66, 67, 68, 69, 70, 71, 72, 73, 74] : List Byte).length
         + (([49, 50, 51, 52, 53] : List Byte).length - 3) ∧
     (FileStream.insert ⟨[65, 66, 67, 68, 69, 70, 71, 72, 73, 74], 0, false, true, false⟩
        [49, 50, 51, 52, 53] 2 3).file.take 2
       = ([65, 66, 67, 68, 69, 70, 71, 72, 73, 74] : List Byte).take 2 ∧
     ((FileStream.insert ⟨[65, 66, 67, 68, 69, 70, 71, 72, 73, 74], 0, false, true, false⟩
        [49, 50, 51, 52, 53] 2 3).file.drop 2).take ([49, 50, 51, 52, 53] : List Byte).length
       = [49, 50, 51, 52, 53] ∧
     (FileStream.insert ⟨[65, 66, 67, 68, 69, 70, 71, 72, 73, 74], 0, false, true, false⟩
        [49, 50, 51, 52, 53] 2 3).file.drop (2 + ([49, 50, 51, 52, 53] : List Byte).length)
       = ([65, 66, 67, 68, 69, 70, 71, 72, 73, 74] : List Byte).drop (2 + 3)) ∧
    (FileStream.insert ⟨[65, 66, 67, 68, 69, 70, 71, 72, 73, 74], 0, false, true, false⟩
        [49, 50, 51, 52, 53] 2 3).file
      = [65, 66, 49, 50, 51, 52, 53, 70, 71, 72, 73, 74] := by
  refine ⟨⟨by decide, by decide⟩, ?_, by decide⟩
  exact insert_grow_correct
    ⟨[65, 66, 67, 68, 69, 70, 71, 72, 73, 74], 0, false, true, false⟩
    [49, 50, 51, 52, 53] 2 3 rfl rfl rfl (by decide) (by decide)

/-- **C3.** On an open writable stream with a clear latch and
`start + len ≤ L`, `removeBlock start len` yields a file of length
`L - len` whose bytes before `start` are unchanged and whose bytes from
`start` on are the original ones from `start + len` on; the file is
truncated exactly to the loop's final write position. -/
theorem removeBlock_correct (s : FileStream) (start len : Nat)
    (hopen : s.isOpen = true) (hro : s.readOnly = false) (hlatch : s.eofLatch = false)
    (hstart : start + len ≤ s.file.length) :
    (s.removeBlock start len).file.length = s.file.length - len ∧
    (s.removeBlock start len).file.take start = s.file.take start ∧
    (s.removeBlock start len).file.drop start = s.file.drop (start + len) ∧
    (s.removeBlock start len).file.length
      = (removeLoop (s.file.length + 2) s (start + len) start BufferSize).2 := by
  have hs : s = ⟨s.file, s.pos, false, true, false⟩ := by
    rcases s with ⟨f, p, ro, op, lat⟩
    simp_all
  have h4 := removeLoop_final_writePosition s.file s.pos start len hstart
  rw [hs, removeBlock_spec s.file s.pos start len hstart]
  dsimp only
  refine ⟨?_, ?_, ?_, ?_⟩
  · simp [List.length_take, List.length_drop]
    omega
  · rw [List.take_append_of_le_length (by simp [List.length_take]; omega), List.take_take]
    simp
  · rw [List.drop_left' (by simp [List.length_take]; omega)]
  · rw [h4]
    simp [List.length_take, List.length_drop]
    omega

/-- Witness for C3 on a concrete five-byte file. -/
theorem removeBlock_correct_witness :
    ((1 : Nat) + 2 ≤ ([1, 2, 3, 4, 5] : List Byte).length) ∧
    ((FileStream.removeBlock ⟨[1, 2, 3, 4, 5], 0, false, true, false⟩ 1 2).file.length
       = ([1, 2, 3, 4, 5] : List Byte).length - 2 ∧
     (FileStream.removeBlock ⟨[1, 2, 3, 4, 5], 0, false, true, false⟩ 1 2).file.take 1
       = ([1, 2, 3, 4, 5] : List Byte).take 1 ∧
     (FileStream.removeBlock ⟨[1, 2, 3, 4, 5], 0, false, true, false⟩ 1 2).file.drop 1
       = ([1, 2, 3, 4, 5] : List Byte).drop (1 + 2) ∧
     (FileStream.removeBlock ⟨[1, 2, 3, 4, 5], 0, false, true, false⟩ 1 2).file.length
       = (removeLoop (([1, 2, 3, 4, 5] : List Byte).length + 2)
           ⟨[1, 2, 3, 4, 5], 0, false, true, false⟩ (1 + 2) 1 BufferSize).2) ∧
    (FileStream.removeBlock ⟨[1, 2, 3, 4, 5], 0, false, true, false⟩ 1 2).file
      = [1, 4, 5] := by
  refine ⟨by decide, ?_, by decide⟩
  exact removeBlock_correct ⟨[1, 2, 3, 4, 5], 0, false, true, false⟩ 1 2 rfl rfl rfl
    (by decide)

/-- **C5, counterexample.** For `data.length = 1024` and `replace = 0` the
growth delta equals one chunk and the computed working-buffer length is
`1024` itself — it is *not* strictly greater than the delta, so it is not
the smallest multiple of the chunk size strictly greater than the delta
(which would be `2048`). -/
theorem insert_bufferLength_not_strictly_greater :
    computeBufferLength BufferSize (1024 - 0) = 1024 ∧
    ¬ ((1024 - 0) < computeBufferLength BufferSize (1024 - 0)) := by
  constructor
  · decide
  · decide

/-- **C5, amended.** In the growing case the working-buffer length is the
smallest positive multiple of the base chunk size that is greater than *or
equal to* the growth delta `data.length - replace`. -/
theorem insert_bufferLength_least_multiple_ge (dataLen replace : Nat)
    (h : replace < dataLen) :
    computeBufferLength BufferSize (dataLen - replace) % BufferSize = 0 ∧
    dataLen - replace ≤ computeBufferLength BufferSize (dataLen - replace) ∧
    ∀ m, m % BufferSize = 0 → dataLen - replace ≤ m → 0 < m →
      computeBufferLength BufferSize (dataLen - replace) ≤ m := by
  refine ⟨computeBufferLength_mod _ _,
    le_computeBufferLength _ _ (by norm_num [BufferSize]), ?_⟩
  intro m hm hdm h0
  exact computeBufferLength_min _ _ (by norm_num [BufferSize]) m hm hdm
    (Nat.le_of_dvd h0 (Nat.dvd_of_mod_eq_zero hm))

/-- Witness for the amended C5 at `data.length = 5`, `replace = 3`. -/
theorem insert_bufferLength_least_multiple_ge_witness :
    (3 : Nat) < 5 ∧
    (computeBufferLength BufferSize (5 - 3) % BufferSize = 0 ∧
     5 - 3 ≤ computeBufferLength BufferSize (5 - 3) ∧
     ∀ m, m % BufferSize = 0 → 5 - 3 ≤ m → 0 < m →
       computeBufferLength BufferSize (5 - 3) ≤ m) := by
  exact ⟨by decide, insert_bufferLength_least_multiple_ge 5 3 (by decide)⟩

/-- **C6.** `removeBlock` on an open stream whose `readOnly` flag is set
leaves the file's content and length unchanged: every write and the final
truncation fail at the backend, since the handle was opened read-only. -/
theorem removeBlock_readOnly_noop (s : FileStream) (start len : Nat)
    (hopen : s.isOpen = true) (hro : s.readOnly = true) :
    (s.removeBlock start len).file = s.file ∧
    (s.removeBlock start len).file.length = s.file.length := by
  have h := removeLoop_readOnly (s.file.length + 2) s (start + len) start BufferSize hro
  have hmain : (s.removeBlock start len).file = s.file := by
    simp only [FileStream.removeBlock, hopen, Bool.not_true, Bool.false_eq_true, if_false]
    unfold FileStream.truncate
    rw [if_pos h.2]
    exact h.1
  exact ⟨hmain, by rw [hmain]⟩

/-- Witness for C6 on a concrete read-only stream. -/
theorem removeBlock_readOnly_noop_witness :
    ((⟨[1, 2, 3], 0, true, true, false⟩ : FileStream).isOpen = true ∧
     (⟨[1, 2, 3], 0, true, true, false⟩ : FileStream).readOnly = true) ∧
    ((FileStream.removeBlock ⟨[1, 2, 3], 0, true, true, false⟩ 1 1).file = [1, 2, 3] ∧
     (FileStream.removeBlock ⟨[1, 2, 3], 0, true, true, false⟩ 1 1).file.length
       = ([1, 2, 3] : List Byte).length) := by
  refine ⟨⟨rfl, rfl⟩, ?_⟩
  exact removeBlock_readOnly_noop ⟨[1, 2, 3], 0, true, true, false⟩ 1 1 rfl rfl

/-- **C8.** A seek whose resolved target offset is negative — from any
origin — leaves the position clamped at the beginning of the file. -/
theorem seek_negative_clamped_to_beginning (s : FileStream) (offs : Int) (p : Position)
    (hopen : s.isOpen = true) (hneg : seekTarget s offs p < 0) :
    (s.seek offs p).pos = 0 := by
  unfold FileStream.seek
  rw [hopen]
  simp [hneg]

/-- Witness for C8: a `Current`-relative seek resolving to `-1`. -/
theorem seek_negative_clamped_to_beginning_witness :
    ((⟨[0, 0, 0], 1, false, true, false⟩ : FileStream).isOpen = true ∧
     seekTarget ⟨[0, 0, 0], 1, false, true, false⟩ (-2) Position.Current < 0) ∧
    (FileStream.seek ⟨[0, 0, 0], 1, false, true, false⟩ (-2) Position.Current).pos = 0 := by
  refine ⟨⟨rfl, by decide⟩, ?_⟩
  exact seek_negative_clamped_to_beginning ⟨[0, 0, 0], 1, false, true, false⟩ (-2)
    Position.Current rfl (by decide)

/-- **C9.** `writeBlock` on a stream whose `readOnly` flag is set is a
complete no-op: the stream, in particular the file's content and length, is
unchanged. -/
theorem writeBlock_readOnly_noop (s : FileStream) (data : List Byte)
    (hro : s.readOnly = true) : s.writeBlock data = s := by
  simp [FileStream.writeBlock, hro]

/-- Witness for C9. -/
theorem writeBlock_readOnly_noop_witness :
    ((⟨[1, 2, 3], 0, true, true, false⟩ : FileStream).readOnly = true) ∧
    FileStream.writeBlock ⟨[1, 2, 3], 0, true, true, false⟩ [9, 9]
      = ⟨[1, 2, 3], 0, true, true, false⟩ := by
  exact ⟨rfl, writeBlock_readOnly_noop ⟨[1, 2, 3], 0, true, true, false⟩ [9, 9] rfl⟩

/-- **C10.** `removeBlock start len` on an open writable stream with
`start ≥ L` copies nothing (the first read is past end of file) and then
truncates to `start`: when `start > L` the file is zero-extended to length
`start`, and when `start = L` it is unchanged — in both cases the final
length is exactly `start`. -/
theorem removeBlock_beyond_eof_truncates_to_start (s : FileStream) (start len : Nat)
    (hopen : s.isOpen = true) (hro : s.readOnly = false) (hlatch : s.eofLatch = false)
    (hbeyond : s.file.length ≤ start) :
    (s.removeBlock start len).file
      = s.file ++ List.replicate (start - s.file.length) 0 ∧
    (s.removeBlock start len).file.length = start := by
  have hs : s = ⟨s.file, s.pos, false, true, false⟩ := by
    rcases s with ⟨f, p, ro, op, lat⟩
    simp_all
  have hchunk : 0 < BufferSize := by norm_num [BufferSize]
  have hread : (s.file.drop (start + len)).take BufferSize = [] := by
    rw [List.drop_of_length_le (by omega)]
    simp
  have hone : s.file.length + 2 = (s.file.length + 1) + 1 := rfl
  have hloop : removeLoop (s.file.length + 2) ⟨s.file, s.pos, false, true, false⟩
      (start + len) start BufferSize
      = (⟨s.file, start, false, true, false⟩, start) := by
    rw [hone]
    simp only [removeLoop, seek_nat, readFile_nolatch, hread, List.length_nil]
    rw [if_pos trivial]
    rw [if_pos hchunk]
    simp only [clear_rw, seek_nat, writeFile_rw, writeAt_nil]
    simp
  have hmain : (s.removeBlock start len).file
      = s.file ++ List.replicate (start - s.file.length) 0 := by
    rw [hs]
    simp only [FileStream.removeBlock, Bool.not_true, Bool.false_eq_true, if_false]
    rw [hloop]
    unfold FileStream.truncate
    simp only [Bool.false_eq_true, if_false]
    rcases Nat.eq_or_lt_of_le hbeyond with heq | hlt
    · rw [if_pos (by omega)]
      rw [List.take_of_length_le (by omega), show start - s.file.length = 0 by omega]
      simp
    · rw [if_neg (by omega)]
  refine ⟨hmain, ?_⟩
  rw [hmain]
  simp [List.length_append, List.length_replicate]
  omega

/-- Witness for C10: removing at offset 4 of a two-byte file grows it to
four bytes of which the last two are zero. -/
theorem removeBlock_beyond_eof_truncates_to_start_witness :
    (([1, 2] : List Byte).length ≤ 4) ∧
    ((FileStream.removeBlock ⟨[1, 2], 0, false, true, false⟩ 4 3).file
       = [1, 2] ++ List.replicate (4 - ([1, 2] : List Byte).length) 0 ∧
     (FileStream.removeBlock ⟨[1, 2], 0, false, true, false⟩ 4 3).file.length = 4) := by
  refine ⟨by decide, ?_⟩
  exact removeBlock_beyond_eof_truncates_to_start ⟨[1, 2], 0, false, true, false⟩ 4 3
    rfl rfl rfl (by decide)

/-- **C7, counterexample.**  With a 10-byte file and the position at 5, a
request of 2000 bytes is clamped to the file's *total* length 10, not to
the 5 bytes remaining from the current position as the claim states. -/
theorem readBlock_clamps_to_total_not_remaining :
    readBlockRequested ⟨[0, 0, 0, 0, 0, 0, 0, 0, 0, 0], 5, false, true, false⟩ 2000
      = 10 ∧
    (⟨[0, 0, 0, 0, 0, 0, 0, 0, 0, 0], 5, false, true, false⟩ : FileStream).file.length
      - (⟨[0, 0, 0, 0, 0, 0, 0, 0, 0, 0], 5, false, true, false⟩ : FileStream).pos = 5 ∧
    ¬ readBlockRequested ⟨[0, 0, 0, 0, 0, 0, 0, 0, 0, 0], 5, false, true, false⟩ 2000
      = 5 := by
  refine ⟨by decide, by decide, by decide⟩

/-- **C7, amended.** On an open stream with a clear latch, a request
exceeding both `BufferSize` and the file's *total* length is clamped to
that total length before allocating; `readBlock` returns exactly the bytes
obtained (never more than requested, possibly empty past end of file),
never errors, and advances the position only by the bytes actually read,
never past the file's length. -/
theorem readBlock_clamp_and_eof_behavior (s : FileStream) (len : Nat)
    (hopen : s.isOpen = true) (hlatch : s.eofLatch = false) :
    (BufferSize < len → s.file.length < len →
      readBlockRequested s len = s.file.length) ∧
    (s.readBlock len).1 = (s.file.drop s.pos).take len ∧
    (s.readBlock len).1.length ≤ len ∧
    (s.readBlock len).2.pos = s.pos + (s.readBlock len).1.length ∧
    (s.readBlock len).2.pos ≤ max s.pos s.file.length := by
  have hs : s = ⟨s.file, s.pos, s.readOnly, true, false⟩ := by
    rcases s with ⟨f, p, ro, op, lat⟩
    simp_all
  refine ⟨?_, ?_⟩
  · intro h1 h2
    unfold readBlockRequested
    rw [if_pos ⟨h1, h2⟩]
  by_cases hlen : len = 0
  · subst hlen
    rw [hs]
    simp [FileStream.readBlock]
  · have hblock : s.readBlock len
        = readFile ⟨s.file, s.pos, s.readOnly, true, false⟩
            (readBlockRequested ⟨s.file, s.pos, s.readOnly, true, false⟩ len) := by
      rw [hs]
      simp [FileStream.readBlock, hlen]
    have hreq : min (readBlockRequested ⟨s.file, s.pos, s.readOnly, true, false⟩ len)
        (s.file.length - s.pos) = min len (s.file.length - s.pos) := by
      unfold readBlockRequested
      by_cases hc : BufferSize < len ∧ s.file.length < len
      · rw [if_pos hc]
        show min s.file.length (s.file.length - s.pos) = min len (s.file.length - s.pos)
        omega
      · rw [if_neg hc]
    have htake : (s.file.drop s.pos).take
        (readBlockRequested ⟨s.file, s.pos, s.readOnly, true, false⟩ len)
        = (s.file.drop s.pos).take len := by
      apply List.take_eq_take.mpr
      simpa [List.length_drop] using hreq
    rw [hblock, readFile_nolatch]
    dsimp only
    rw [htake]
    have hrem : ((s.file.drop s.pos).take len).length ≤ s.file.length - s.pos := by
      simp [List.length_take, List.length_drop]
    refine ⟨rfl, ?_, rfl, ?_⟩
    · simp [List.length_take]
    · omega

/-- Witness for the amended C7: a 2000-byte request on a 3-byte file with
the position at 1. -/
theorem readBlock_clamp_and_eof_behavior_witness :
    ((⟨[1, 2, 3], 1, false, true, false⟩ : FileStream).isOpen = true ∧
     (⟨[1, 2, 3], 1, false, true, false⟩ : FileStream).eofLatch = false) ∧
    ((BufferSize < 2000 → (⟨[1, 2, 3], 1, false, true, false⟩ : FileStream).file.length < 2000 →
       readBlockRequested ⟨[1, 2, 3], 1, false, true, false⟩ 2000
         = (⟨[1, 2, 3], 1, false, true, false⟩ : FileStream).file.length) ∧
     (FileStream.readBlock ⟨[1, 2, 3], 1, false, true, false⟩ 2000).1
       = (([1, 2, 3] : List Byte).drop 1).take 2000 ∧
     (FileStream.readBlock ⟨[1, 2, 3], 1, false, true, false⟩ 2000).1.length ≤ 2000 ∧
     (FileStream.readBlock ⟨[1, 2, 3], 1, false, true, false⟩ 2000).2.pos
       = 1 + (FileStream.readBlock ⟨[1, 2, 3], 1, false, true, false⟩ 2000).1.length ∧
     (FileStream.readBlock ⟨[1, 2, 3], 1, false, true, false⟩ 2000).2.pos
       ≤ max 1 ([1, 2, 3] : List Byte).length) := by
  exact ⟨⟨rfl, rfl⟩,
    readBlock_clamp_and_eof_behavior ⟨[1, 2, 3], 1, false, true, false⟩ 2000 rfl rfl⟩

/-- **C4.** On an open writable stream with a clear latch and in-bounds
`start`, a pure insert (`replace = 0`) followed by `removeBlock` of the same
`start` and `data.length` restores the original byte content, for every
`data` — in particular for sizes below, above and straddling multiples of
the base chunk size, since `data` is arbitrary. -/
theorem insert_removeBlock_roundtrip (s : FileStream) (data : List Byte) (start : Nat)
    (hopen : s.isOpen = true) (hro : s.readOnly = false) (hlatch : s.eofLatch = false)
    (hstart : start ≤ s.file.length) :
    ((s.insert data start 0).removeBlock start data.length).file = s.file := by
  have hs : s = ⟨s.file, s.pos, false, true, false⟩ := by
    rcases s with ⟨f, p, ro, op, lat⟩
    simp_all
  by_cases hd : data.length = 0
  · have hdata : data = [] := List.length_eq_zero.mp hd
    subst hdata
    simp only [List.length_nil]
    have hins : s.insert [] start 0 = ⟨s.file, start, false, true, false⟩ := by
      rw [hs]
      simp only [FileStream.insert, Bool.not_true, Bool.false_eq_true, if_false,
        List.length_nil]
      rw [if_pos trivial]
      rw [seek_nat, writeBlock_rw, writeAt_nil]
      simp
    rw [hins, removeBlock_spec s.file start start 0 (by omega)]
    simp
  · have hgrow : 0 < data.length := by omega
    rw [hs, insert_grow_spec s.file data s.pos start 0 hgrow (by omega)]
    have hRlen : start + data.length
        ≤ (s.file.take start ++ data ++ s.file.drop (start + 0)).length := by
      simp [List.length_take, List.length_drop]
      omega
    rw [removeBlock_spec _ _ start data.length hRlen]
    dsimp only
    have h1 : (s.file.take start ++ data ++ s.file.drop (start + 0)).take start
        = s.file.take start := by
      rw [List.append_assoc,
        List.take_append_of_le_length (by simp [List.length_take]; omega), List.take_take]
      simp
    have h2 : (s.file.take start ++ data ++ s.file.drop (start + 0)).drop
        (start + data.length) = s.file.drop (start + 0) := by
      rw [List.drop_left' (by simp [List.length_take]; omega)]
    rw [h1, h2]
    simp

/-- Witness for C4 on a concrete three-byte file with two inserted bytes. -/
theorem insert_removeBlock_roundtrip_witness :
    ((1 : Nat) ≤ ([5, 6, 7] : List Byte).length) ∧
    (FileStream.removeBlock (FileStream.insert ⟨[5, 6, 7], 0, false, true, false⟩ [9, 8] 1 0)
        1 ([9, 8] : List Byte).length).file = [5, 6, 7] := by
  exact ⟨by decide, insert_removeBlock_roundtrip ⟨[5, 6, 7], 0, false, true, false⟩
    [9, 8] 1 rfl rfl rfl (by decide)⟩

/-! ### The read-ahead-covers-writes check -/

theorem insertLoopChecked_drain (BL : Nat) (R F : List Byte) (hBL : 0 < BL)
    (hFR : F.length ≤ R.length) :
    ∀ fuel rp wp (buffer : List Byte) readSize q,
      1 ≤ fuel →
      buffer = R.drop wp →
      wp ≤ R.length →
      max wp F.length ≤ rp →
      (insertLoopChecked BL fuel ⟨R.take wp ++ F.drop wp, q, false, true, false⟩ rp wp
        buffer readSize).2 = true := by
  intro fuel rp wp buffer readSize q hfuel hbuf hwp hrp
  obtain ⟨fl, rfl⟩ : ∃ fl, fuel = fl + 1 := ⟨fuel - 1, by omega⟩
  have hfile_len : (R.take wp ++ F.drop wp).length = max wp F.length :=
    invfile_length R F wp hwp
  have hread : ((R.take wp ++ F.drop wp).drop rp).take readSize = [] := by
    rw [List.drop_of_length_le (by omega)]
    simp
  simp only [insertLoopChecked, seek_nat, readFile_nolatch, hread, List.length_nil]
  rw [if_pos trivial]
  simp only [decide_eq_true_eq, hfile_len]
  omega

theorem insertLoopChecked_main (BL : Nat) (R F d : List Byte) (start r : Nat)
    (hBL0 : 0 < BL) (hr : r < d.length) (hstart : start + r ≤ F.length)
    (hBL : d.length - r ≤ BL)
    (hR : R = F.take start ++ d ++ F.drop (start + r)) :
    ∀ fuel rp wp (buffer : List Byte) q,
      wp + buffer.length = rp + (d.length - r) →
      buffer = (R.drop wp).take buffer.length →
      rp ≤ F.length →
      d.length - r ≤ buffer.length →
      start + r ≤ rp →
      F.length + BL ≤ rp + fuel * BL →
      (insertLoopChecked BL fuel ⟨R.take wp ++ F.drop wp, q, false, true, false⟩ rp wp
        buffer BL).2 = true := by
  have hRlen : R.length = F.length + (d.length - r) := by
    rw [hR]
    simp [List.length_take, List.length_drop]
    omega
  intro fuel
  induction fuel with
  | zero =>
    intro rp wp buffer q h1 h2 h3 h4 h5 h6
    exfalso
    omega
  | succ fuel ih =>
    intro rp wp buffer q h1 h2 h3 h4 h5 h6
    have hexp : (fuel + 1) * BL = fuel * BL + BL := by ring
    have hwrp : wp ≤ rp := by omega
    have hwpF : wp ≤ F.length := le_trans hwrp h3
    have hwpR : wp ≤ R.length := by omega
    have hwbR : wp + buffer.length ≤ R.length := by omega
    have hfl : (R.take wp ++ F.drop wp).length = max wp F.length :=
      invfile_length R F wp hwpR
    have hdropinv : (R.take wp ++ F.drop wp).drop rp = F.drop rp :=
      invfile_drop R F wp rp hwpR hwrp
    have hna : ((F.drop rp).take BL).length = min BL (F.length - rp) := by
      simp [List.length_take, List.length_drop]
    by_cases hn0 : ((F.drop rp).take BL).length = 0
    · have hread : ((R.take wp ++ F.drop wp).drop rp).take BL = [] := by
        rw [hdropinv]
        exact List.length_eq_zero.mp hn0
      simp only [insertLoopChecked, seek_nat, readFile_nolatch, hread, List.length_nil]
      rw [if_pos trivial]
      simp only [decide_eq_true_eq, hfl]
      omega
    · have hread : ((R.take wp ++ F.drop wp).drop rp).take BL = (F.drop rp).take BL := by
        rw [hdropinv]
      have hok : min (wp + buffer.length) (R.take wp ++ F.drop wp).length
          ≤ rp + ((F.drop rp).take BL).length := by
        rw [hfl]
        omega
      by_cases hnBL : ((F.drop rp).take BL).length < BL
      · have hn : ((F.drop rp).take BL).length = F.length - rp := by omega
        have hfuel1 : 1 ≤ fuel := by
          rcases Nat.eq_zero_or_pos fuel with hz | hp
          · subst hz; exfalso; omega
          · exact hp
        have hwrite : writeAt (R.take wp ++ F.drop wp) wp buffer
            = R.take (wp + buffer.length) ++ F.drop (wp + buffer.length) :=
          writeAt_invfile R F buffer wp h2 hwbR hwpF
        have hafull : (F.drop rp).take BL = F.drop rp := by
          apply List.take_of_length_le
          simp [List.length_drop]
          omega
        have hshift : R.drop (wp + buffer.length) = F.drop rp := by
          rw [h1, hR]
          exact spliceResult_drop F d start r rp (by omega) (by omega) h5
        have hdrain := insertLoopChecked_drain BL R F hBL0 (by omega) fuel (rp + BL)
          (wp + buffer.length) ((F.drop rp).take BL) ((F.drop rp).take BL).length
          (wp + buffer.length) hfuel1 (by rw [hafull, hshift]) hwbR (by omega)
        simp only [insertLoopChecked, seek_nat, readFile_nolatch, hread]
        rw [if_pos hnBL, if_neg hn0]
        simp only [clear_rw, seek_nat, writeBlock_rw, hwrite]
        rw [hdrain]
        simp only [Bool.and_true, decide_eq_true_eq]
        exact hok
      · have haBL : ((F.drop rp).take BL).length = BL := by
          have : ((F.drop rp).take BL).length ≤ BL := by
            simp [List.length_take]
          omega
        have hrpBL : rp + BL ≤ F.length := by omega
        have hwrite : writeAt (R.take wp ++ F.drop wp) wp buffer
            = R.take (wp + buffer.length) ++ F.drop (wp + buffer.length) :=
          writeAt_invfile R F buffer wp h2 hwbR hwpF
        have hdec : decide (((F.drop rp).take BL).length < BL) = false :=
          decide_eq_false hnBL
        have hshift : R.drop (wp + buffer.length) = F.drop rp := by
          rw [h1, hR]
          exact spliceResult_drop F d start r rp (by omega) (by omega) h5
        have hrec := ih (rp + BL) (wp + buffer.length) ((F.drop rp).take BL)
          (wp + buffer.length) (by omega)
          (by rw [hshift]; rw [List.take_eq_take]; omega)
          hrpBL (by omega) (by omega) (by omega)
        have hdec2 : (decide (BL < BL)) = false := decide_eq_false (by omega)
        simp only [insertLoopChecked, seek_nat, readFile_nolatch, hread]
        rw [if_neg hnBL, if_neg hn0]
        simp only [hdec, hdec2, seek_nat, writeBlock_rw, hwrite, haBL]
        rw [hrec]
        simp only [Bool.and_true, decide_eq_true_eq]
        rw [← haBL]
        exact hok

/-- **C2.** In every round of the growing-insert loop, for every file
content, `data`, `start` and `replace` with `data.length > replace` (no
bound on `start`), the write performed after the round's read-ahead never
touches a file byte at or beyond the read frontier: every byte of the file
present at read time that the write overwrites lies below
`readPosition + bytesRead`, the end of the contiguously read region, so no
unread byte is ever overwritten.  Stated via the instrumented loop, whose
per-round check is exactly that containment. -/
theorem insert_read_ahead_covers_writes (s : FileStream) (data : List Byte)
    (start replace : Nat)
    (hopen : s.isOpen = true) (hro : s.readOnly = false) (hlatch : s.eofLatch = false)
    (hr : replace < data.length) :
    (insertChecked s data start replace).2 = true := by
  have hs : s = ⟨s.file, s.pos, false, true, false⟩ := by
    rcases s with ⟨f, p, ro, op, lat⟩
    simp_all
  have hchunk : 0 < BufferSize := by norm_num [BufferSize]
  have hBL0 : 0 < computeBufferLength BufferSize (data.length - replace) :=
    lt_of_lt_of_le hchunk (chunk_le_computeBufferLength _ _)
  have hBL : data.length - replace
      ≤ computeBufferLength BufferSize (data.length - replace) :=
    le_computeBufferLength _ _ hchunk
  have hne : ¬ (data.length = replace) := by omega
  have hnlt : ¬ (data.length < replace) := by omega
  rw [hs]
  simp only [insertChecked, Bool.not_true, Bool.false_eq_true, if_false, if_neg hne,
    if_neg hnlt]
  by_cases hstart : start + replace ≤ s.file.length
  · have hAlen : (s.file.take start).length = start := by
      simp [List.length_take]
      omega
    have htkR : (s.file.take start ++ data ++ s.file.drop (start + replace)).take start
        = s.file.take start := by
      rw [List.append_assoc, List.take_append_of_le_length (by omega), List.take_take]
      simp
    have hinit : (s.file.take start ++ data ++ s.file.drop (start + replace)).take start
        ++ s.file.drop start = s.file := by
      rw [htkR, List.take_append_drop]
    have hbuf : data
        = ((s.file.take start ++ data ++ s.file.drop (start + replace)).drop start).take
            data.length := by
      rw [List.append_assoc, List.drop_left' hAlen, List.take_left]
    have hfuel : s.file.length + computeBufferLength BufferSize (data.length - replace)
        ≤ (start + replace)
          + (s.file.length + 2) * computeBufferLength BufferSize (data.length - replace) := by
      have h1 : (s.file.length + 2) * computeBufferLength BufferSize (data.length - replace)
          = s.file.length * computeBufferLength BufferSize (data.length - replace)
            + 2 * computeBufferLength BufferSize (data.length - replace) := by ring
      have h2 : s.file.length
          ≤ s.file.length * computeBufferLength BufferSize (data.length - replace) :=
        Nat.le_mul_of_pos_right _ hBL0
      omega
    have hmain := insertLoopChecked_main
      (computeBufferLength BufferSize (data.length - replace))
      (s.file.take start ++ data ++ s.file.drop (start + replace)) s.file data start
      replace hBL0 hr hstart hBL rfl (s.file.length + 2) (start + replace) start data
      s.pos (by omega) hbuf hstart (by omega) (le_refl _) hfuel
    rw [hinit] at hmain
    exact hmain
  · have hone : s.file.length + 2 = (s.file.length + 1) + 1 := rfl
    have hread : (s.file.drop (start + replace)).take
        (computeBufferLength BufferSize (data.length - replace)) = [] := by
      rw [List.drop_of_length_le (by omega)]
      simp
    rw [hone]
    simp only [insertLoopChecked, seek_nat, readFile_nolatch, hread, List.length_nil]
    rw [if_pos trivial]
    simp only [decide_eq_true_eq]
    omega

/-- Witness for C2 at the spec's concrete scenario. -/
theorem insert_read_ahead_covers_writes_witness :
    ((3 : Nat) < ([49, 50, 51, 52, 53] : List Byte).length) ∧
    (insertChecked ⟨[65, 66, 67, 68, 69, 70, 71, 72, 73, 74], 0, false, true, false⟩
      [49, 50, 51, 52, 53] 2 3).2 = true := by
  exact ⟨by decide, insert_read_ahead_covers_writes
    ⟨[65, 66, 67, 68, 69, 70, 71, 72, 73, 74], 0, false, true, false⟩
    [49, 50, 51, 52, 53] 2 3 rfl rfl rfl (by decide)⟩
